import Mathlib

set_option maxRecDepth 100000

/-!
Verification of the Camenisch-Shoup verifiable encryption library
(hyperledger-labs/agora-verifiable-encryption).

The Rust sources are shallowly embedded as follows.

* BigNumber (from the unknown-order crate) is an arbitrary-precision signed
  integer.  Every value that the library keeps reduced modulo a positive
  modulus (group elements, keys, messages, challenges) is embedded as Nat;
  the Schnorr responses, which are produced by an unreduced subtraction and
  can be negative, are embedded as Int, and modular exponentiation takes an
  Int exponent, inverting the base for a negative exponent (the BigInt
  contract used by verify).
* The merlin transcript is an external collaborator.  It is embedded as an
  oracle: a function from the exact list of absorbed, labelled messages
  (plus the challenge label and requested byte count) to the extracted
  bytes.  The code under verification only determines which operations are
  absorbed in which order, which is recorded faithfully.
* Randomness is externalized: random values sampled inside a function
  become explicit arguments, constrained in theorems exactly as the
  samplers constrain them.
* Rust Result error strings become constructors of an error type, one
  constructor per distinct observable condition.
-/

namespace Verenc

/-- Fuel-indexed helper for the minimal big-endian byte encoding. -/
def natToBytesAux : Nat → Nat → List Nat
  | 0, _ => []
  | fuel+1, n => if n = 0 then [] else natToBytesAux fuel (n / 256) ++ [n % 256]

/-- Minimal big-endian byte encoding of a nonnegative integer, as produced by
BigNumber to_bytes; zero encodes as the empty byte string. -/
def toBytes (n : Nat) : List Nat := natToBytesAux n n

/-- Big-endian interpretation of a byte string as a nonnegative integer, as
produced by BigNumber from_slice. -/
def fromBytesBE (l : List Nat) : Nat := l.foldl (fun acc b => acc * 256 + b) 0

/-- Modular inverse in the canonical range, as returned by the BigNumber
invert operation: the unique b below m with a * b congruent to 1, when the
inverse exists, and none otherwise. -/
def invert (a m : Nat) : Option Nat := (List.range m).find? fun b => a * b % m == 1

/-- Modular exponentiation with a signed exponent, as provided by the
BigNumber modpow operation: a negative exponent inverts the base first.
Modelled from the spec: the BigInt library contract (modular exponentiation,
modular inverse); the branch where no inverse exists is never reached in the
theorems below. -/
def powInt (a : Nat) (e : Int) (m : Nat) : Nat :=
  if e < 0 then
    match invert a m with
    | some b => b ^ (-e).toNat % m
    | none => 0
  else a ^ e.toNat % m

/-- One operation absorbed into a merlin transcript: either the context
label used at initialization or a labelled message. -/
inductive TOp where
  | init (ctx : String)
  | append (label : String) (msg : List Nat)
deriving DecidableEq

/-- The external transcript, as an oracle: from the full list of absorbed
operations, the challenge label and the requested byte count to the
extracted bytes.  Modelled from the spec: the Transcript contract
(domain-separated labelled absorption, fixed-length challenge extraction). -/
def TOracle : Type := List TOp → String → Nat → List Nat

/-- Public group data: modulus n, its square nn, the generators g and h and
the precomputed derived values, mirroring the Rust Group struct. -/
structure Group where
  g : Nat
  h : Nat
  n : Nat
  nd4 : Nat
  nn : Nat
  n2d2 : Nat
  n2d4 : Nat
  two_inv_two : Nat
deriving DecidableEq

/-- Group construction from two (unchecked) safe primes and the random
element gTick sampled below n squared, mirroring
Group::with_safe_primes_unchecked; fails when the primes coincide or 2 has
no inverse modulo n. -/
def withSafePrimesUnchecked (p q gTick : Nat) : Option Group :=
  if p = q then none
  else
    let n := p * q
    let nn := n * n
    (invert 2 n).map fun two_inv =>
      let two_n2 := nn * 2
      let n2d2 := nn / 2
      let n2d4 := n2d2 / 2
      let nd4 := n / 4
      let h := n + 1
      let g := gTick ^ two_n2 % nn
      let two_inv_two := two_inv * 2
      ⟨g, h, n, nd4, nn, n2d2, n2d4, two_inv_two⟩

/-- Modular exponentiation reduced by the group modulus nn. -/
def Group.pow (G : Group) (a : Nat) (e : Int) : Nat := powInt a e G.nn

/-- Modular multiplication reduced by the group modulus nn. -/
def Group.mul (G : Group) (a b : Nat) : Nat := a * b % G.nn

/-- Modular exponentiation with base g. -/
def Group.g_pow (G : Group) (e : Int) : Nat := powInt G.g e G.nn

/-- Modular exponentiation with base h. -/
def Group.h_pow (G : Group) (e : Int) : Nat := powInt G.h e G.nn

/-- Absolute value in the quotient by plus or minus one: reduce modulo nn
to tv, then reflect when tv lies above n2d2, mirroring Group::abs. -/
def Group.abs (G : Group) (a : Nat) : Nat :=
  if G.n2d2 < a % G.nn then G.nn - a % G.nn else a % G.nn

/-- The hash H(u, e, domain) used by encryption and decryption: a transcript
with context label "encryption hash generation" absorbing u, the
concatenated bytes of e and the domain, answering 64 bytes under label
"encryption hash output", interpreted big-endian. -/
def Group.hash (_G : Group) (O : TOracle) (u : Nat) (e : List Nat)
    (domain : List Nat) : Nat :=
  fromBytesBE (O [TOp.init "encryption hash generation",
    TOp.append "u" (toBytes u),
    TOp.append "e" ((e.map toBytes).flatten),
    TOp.append "domain" domain] "encryption hash output" 64)

/-- Secret decryption key: exponent vector x1 and scalars x2, x3 with a
copy of the group. -/
structure DecryptionKey where
  x1 : List Nat
  x2 : Nat
  x3 : Nat
  group : Group
deriving DecidableEq

/-- Public encryption key: y-values and a copy of the group. -/
structure EncryptionKey where
  y1 : List Nat
  y2 : Nat
  y3 : Nat
  group : Group
deriving DecidableEq

/-- Derivation of the public key from the secret key, mirroring the From
impl: each y is g raised to the corresponding x. -/
def EncryptionKey.ofDecryptionKey (dk : DecryptionKey) : EncryptionKey :=
  ⟨dk.x1.map fun (x : Nat) => dk.group.g_pow (x : Int),
    dk.group.g_pow (dk.x2 : Int),
    dk.group.g_pow (dk.x3 : Int),
    dk.group⟩

/-- Ciphertext record (u, v, e1 .. ek). -/
structure VerifiableCipherText where
  u : Nat
  v : Nat
  e : List Nat
deriving DecidableEq

/-- Proof record (challenge, r-hat, m-hat values); the responses are signed. -/
structure VerifiableEncryptionProof where
  challenge : Nat
  r : Int
  m : List Int
deriving DecidableEq

/-- The PartialEq implementation on ciphertexts: u and v must agree and the
e-vectors are compared by zipping them, exactly as the Rust impl does. -/
def vctEq (a b : VerifiableCipherText) : Bool :=
  a.u == b.u && a.v == b.v && (a.e.zip b.e).all fun lr => lr.1 == lr.2

/-- Error conditions surfaced by the library, one constructor per distinct
Rust error string. -/
inductive VEError where
  | CapacityExceeded
  | InvalidMessage (i : Nat)
  | LengthMismatch
  | InvalidBlinding (i : Nat)
  | AbsCheckFailed
  | ConsistencyFailed
  | InvalidCiphertext
  | DecryptionFailed (i : Nat)
  | InvalidProof
deriving DecidableEq

/-- Decidable equality on results, needed to evaluate the embedded
operations on concrete inputs. -/
instance {ε α : Type} [DecidableEq ε] [DecidableEq α] :
    DecidableEq (Except ε α) := fun x y =>
  match x, y with
  | .ok a, .ok b =>
    match decEq a b with
    | isTrue hab => isTrue (by rw [hab])
    | isFalse hab => isFalse (by intro hxy; cases hxy; exact hab rfl)
  | .ok _, .error _ => isFalse (by intro hxy; cases hxy)
  | .error _, .ok _ => isFalse (by intro hxy; cases hxy)
  | .error a, .error b =>
    match decEq a b with
    | isTrue hab => isTrue (by rw [hab])
    | isFalse hab => isFalse (by intro hxy; cases hxy; exact hab rfl)

/-- u = g to the r, mirroring EncryptionKey::compute_u. -/
def EncryptionKey.compute_u (ek : EncryptionKey) (r : Int) : Nat :=
  ek.group.g_pow r

/-- The e-components: y1 i to the r times h to the message, mirroring
EncryptionKey::compute_e. -/
def EncryptionKey.compute_e (ek : EncryptionKey) (msgs : List Nat) (r : Int) :
    List Nat :=
  (msgs.zip ek.y1).map fun my =>
    ek.group.mul (ek.group.pow my.2 r) (ek.group.h_pow (my.1 : Int))

/-- v = ((y3 to the hash) times y2) to the r, optionally reduced to absolute
form, mirroring EncryptionKey::compute_v. -/
def EncryptionKey.compute_v (ek : EncryptionKey) (r : Int) (hash : Nat)
    (absRed : Bool) : Nat :=
  let v := ek.group.pow (ek.group.mul (ek.group.pow ek.y3 (hash : Int)) ek.y2) r
  if absRed then ek.group.abs v else v

/-- Deterministic encryption under an explicit blinding factor r, mirroring
EncryptionKey::encrypt_with_blinding_factor. -/
def EncryptionKey.encrypt_with_blinding_factor (ek : EncryptionKey)
    (O : TOracle) (domain : List Nat) (msgs : List Nat) (r : Nat) :
    VerifiableCipherText :=
  let u := ek.compute_u (r : Int)
  let e := ek.compute_e msgs (r : Int)
  let hash := ek.group.hash O u e domain
  let v := ek.compute_v (r : Int) hash true
  ⟨u, v, e⟩

/-- EncryptionKey::encrypt with the sampled randomness r made explicit:
rejects oversize vectors and any message exceeding n, then delegates. -/
def EncryptionKey.encrypt (ek : EncryptionKey) (O : TOracle)
    (domain : List Nat) (msgs : List Nat) (r : Nat) :
    Except VEError VerifiableCipherText :=
  if ek.y1.length < msgs.length then .error .CapacityExceeded
  else
    match msgs.findIdx? (fun m => decide (ek.group.n < m)) with
    | some i => .error (.InvalidMessage i)
    | none => .ok (ek.encrypt_with_blinding_factor O domain msgs r)

/-- Schnorr response tilde minus challenge times value, the product reduced
modulo nn, the difference taken over the signed integers, mirroring
EncryptionKey::schnorr. -/
def EncryptionKey.schnorr (ek : EncryptionKey) (tilde challenge value : Nat) :
    Int :=
  (tilde : Int) - (ek.group.mul challenge value : Int)

/-- The Schnorr test commitments: encryption of the doubled blindings under
doubled randomness, without the absolute reduction on v, mirroring
EncryptionKey::ciphertext_test_values. -/
def EncryptionKey.ciphertext_test_values (ek : EncryptionKey) (r : Nat)
    (hash : Nat) (msgs : List Nat) : VerifiableCipherText :=
  let two_r := r * 2
  let two_m := msgs.map fun m => m * 2
  let u := ek.compute_u (two_r : Int)
  let e := ek.compute_e two_m (two_r : Int)
  let v := ek.compute_v (two_r : Int) hash false
  ⟨u, v, e⟩

/-- The Fiat-Shamir challenge: a transcript with the verifiable-encryption
context label absorbing the public key, ciphertext and test values in the
order fixed by the code, answering 32 bytes interpreted big-endian,
mirroring EncryptionKey::fiat_shamir. -/
def EncryptionKey.fiat_shamir (ek : EncryptionKey) (O : TOracle)
    (nonce : List Nat) (ciphertext test_values : VerifiableCipherText) : Nat :=
  fromBytesBE (O [TOp.init "camenisch-shoup verifiable encryption proof",
    TOp.append "nonce" nonce,
    TOp.append "n" (toBytes ek.group.n),
    TOp.append "g" (toBytes ek.group.g),
    TOp.append "y2" (toBytes ek.y2),
    TOp.append "y3" (toBytes ek.y3),
    TOp.append "y1" ((ek.y1.map toBytes).flatten),
    TOp.append "ciphertext.u" (toBytes ciphertext.u),
    TOp.append "ciphertext.e" ((ciphertext.e.map toBytes).flatten),
    TOp.append "ciphertext.v" (toBytes ciphertext.v),
    TOp.append "ciphertext_test.u" (toBytes test_values.u),
    TOp.append "ciphertext_test.e" ((test_values.e.map toBytes).flatten),
    TOp.append "ciphertext_test.v" (toBytes test_values.v)]
    "verifiable encryption proof challenge" 32)

/-- EncryptionKey::encrypt_and_prove_blindings with the sampled r and
r-prime made explicit: validity checks, encryption, test commitments,
Fiat-Shamir challenge and Schnorr responses. -/
def EncryptionKey.encrypt_and_prove_blindings (ek : EncryptionKey)
    (O : TOracle) (nonce : List Nat) (msgs blindings : List Nat)
    (r rTick : Nat) :
    Except VEError (VerifiableCipherText × VerifiableEncryptionProof) :=
  if msgs.length ≠ blindings.length then .error .LengthMismatch
  else if ek.y1.length < msgs.length then .error .CapacityExceeded
  else
    match blindings.findIdx? (fun b => b == 0) with
    | some i => .error (.InvalidBlinding i)
    | none =>
      let ciphertext := ek.encrypt_with_blinding_factor O nonce msgs r
      let hash := ek.group.hash O ciphertext.u ciphertext.e nonce
      let test_values := ek.ciphertext_test_values rTick hash blindings
      let challenge := ek.fiat_shamir O nonce ciphertext test_values
      let r_hat := ek.schnorr rTick challenge r
      let m_hat := (msgs.zip blindings).map fun mb => ek.schnorr mb.2 challenge mb.1
      .ok (ciphertext, ⟨challenge, r_hat, m_hat⟩)

/-- EncryptionKey::verify: reconstruct the Schnorr commitments from the
ciphertext and the responses, recompute the Fiat-Shamir challenge and
compare it with the challenge carried by the proof. -/
def EncryptionKey.verify (ek : EncryptionKey) (O : TOracle) (nonce : List Nat)
    (ciphertext : VerifiableCipherText) (proof : VerifiableEncryptionProof) :
    Except VEError Unit :=
  if ek.y1.length < proof.m.length then .error .CapacityExceeded
  else if proof.m.length ≠ ciphertext.e.length then .error .LengthMismatch
  else
    let G := ek.group
    let two_c : Int := (proof.challenge : Int) * 2
    let two_r : Int := proof.r * 2
    let uc := G.pow ciphertext.u two_c
    let gr := G.g_pow two_r
    let u := G.mul uc gr
    let e := (ciphertext.e.zip (ek.y1.zip proof.m)).map fun eym =>
      G.mul (G.mul (G.pow eym.1 two_c) (G.pow eym.2.1 two_r))
        (G.h_pow (eym.2.2 * 2))
    let hs := G.hash O ciphertext.u ciphertext.e nonce
    let vc := G.pow ciphertext.v two_c
    let y3hs := G.pow ek.y3 (hs : Int)
    let y2y3hs := G.mul ek.y2 y3hs
    let y2y3hsr2 := G.pow y2y3hs two_r
    let v := G.mul vc y2y3hsr2
    let test_values : VerifiableCipherText := ⟨u, v, e⟩
    let challenge := ek.fiat_shamir O nonce ciphertext test_values
    if challenge = proof.challenge then .ok () else .error .InvalidProof

/-- The per-message extraction loop of DecryptionKey::decrypt over the pairs
of ciphertext components and secret exponents, with the running index used
in error reports. -/
def DecryptionKey.decryptLoop (dk : DecryptionKey) (ctu : Nat) (i : Nat) :
    List (Nat × Nat) → Except VEError (List Nat)
  | [] => .ok []
  | (ee, xx) :: rest =>
    match invert (dk.group.pow ctu (xx : Int)) dk.group.nn with
    | none => .error .InvalidCiphertext
    | some u_x1_inv =>
      let e := dk.group.mul u_x1_inv ee
      let m_hat := dk.group.pow e (dk.group.two_inv_two : Int)
      if m_hat % dk.group.n ≠ 1 then .error (.DecryptionFailed i)
      else (dk.decryptLoop ctu (i+1) rest).map fun ms =>
        (m_hat - 1) / dk.group.n :: ms

/-- DecryptionKey::decrypt: capacity check, absolute-form check on v, the
consistency check of the Cramer-Shoup tag, then per-message extraction. -/
def DecryptionKey.decrypt (dk : DecryptionKey) (O : TOracle)
    (domain : List Nat) (ciphertext : VerifiableCipherText) :
    Except VEError (List Nat) :=
  if dk.x1.length < ciphertext.e.length then .error .CapacityExceeded
  else if ciphertext.v ≠ dk.group.abs ciphertext.v then .error .AbsCheckFailed
  else
    let hash := dk.group.hash O ciphertext.u ciphertext.e domain
    let exp := (hash * dk.x3 + dk.x2) * 2
    let u := dk.group.pow ciphertext.u (exp : Int)
    let v := dk.group.pow ciphertext.v 2
    if u ≠ v then .error .ConsistencyFailed
    else dk.decryptLoop ciphertext.u 0 (ciphertext.e.zip dk.x1)

/-- A concrete group, as built by with_safe_primes_unchecked from the safe
primes 5 and 7 with the random element 2: here g is 2 to the 2450 modulo
1225, which is 949. -/
def GroupC : Group := ⟨949, 36, 35, 8, 1225, 612, 306, 36⟩

/-- A concrete decryption key of capacity 1 over GroupC. -/
def dkC : DecryptionKey := ⟨[3], 4, 5, GroupC⟩

/-- The public key derived from dkC. -/
def ekC : EncryptionKey := EncryptionKey.ofDecryptionKey dkC

/-- A transcript oracle answering every challenge with the empty byte
string, hence challenge value zero. -/
def oracleNil : TOracle := fun _ _ _ => []

/-- A transcript oracle answering every challenge with the two bytes 3, 229,
hence challenge value 997. -/
def oracle997 : TOracle := fun _ _ _ => [3, 229]

/-!  Helper lemmas about the modular inverse. -/

theorem invert_spec {a m b : Nat} (h : invert a m = some b) :
    a * b % m = 1 ∧ b < m := by
  unfold invert at h
  have h1 := List.find?_some h
  have h2 := List.mem_of_find?_eq_some h
  exact ⟨by simpa using h1, List.mem_range.mp h2⟩

theorem inverse_unique {a m b c : Nat} (hb : b < m) (hc : c < m)
    (h1 : a * b % m = 1) (h2 : a * c % m = 1) : b = c := by
  have hm : 2 ≤ m := by
    by_contra hlt
    have hm1 : m = 1 := by omega
    subst hm1
    omega
  have e1 : a * b ≡ 1 [MOD m] := by
    unfold Nat.ModEq
    rw [h1, Nat.mod_eq_of_lt hm]
  have e2 : a * c ≡ 1 [MOD m] := by
    unfold Nat.ModEq
    rw [h2, Nat.mod_eq_of_lt hm]
  have hco : Nat.Coprime a m := Nat.coprime_of_mul_modEq_one b e1
  have hco2 : Nat.gcd m a = 1 := by rw [Nat.gcd_comm]; exact hco
  have h3 : b ≡ c [MOD m] :=
    Nat.ModEq.cancel_left_of_coprime hco2 (e1.trans e2.symm)
  have h4 := h3
  unfold Nat.ModEq at h4
  rw [Nat.mod_eq_of_lt hb, Nat.mod_eq_of_lt hc] at h4
  exact h4

theorem invert_eq_of {a m b : Nat} (hb : b < m) (h1 : a * b % m = 1) :
    invert a m = some b := by
  have hsome : ((List.range m).find? fun x => a * x % m == 1).isSome := by
    rw [List.find?_isSome]
    exact ⟨b, List.mem_range.mpr hb, by simpa using h1⟩
  obtain ⟨c, hc⟩ := Option.isSome_iff_exists.mp hsome
  have hspec := @invert_spec a m c (by unfold invert; exact hc)
  unfold invert
  rw [hc, inverse_unique hspec.2 hb hspec.1 h1]

theorem invert_of_coprime {a m : Nat} (hm : 1 < m) (hco : Nat.Coprime a m) :
    ∃ b, invert a m = some b ∧ a * b % m = 1 ∧ b < m := by
  haveI : NeZero m := ⟨by omega⟩
  set u := ZMod.unitOfCoprime a hco with hu
  set b := ((u⁻¹ : (ZMod m)ˣ) : ZMod m).val with hbdef
  have hb : b < m := ZMod.val_lt _
  have hmul : ((a * b : ℕ) : ZMod m) = ((1 : ℕ) : ZMod m) := by
    push_cast
    rw [hbdef, ZMod.natCast_val, ZMod.cast_id, ← ZMod.coe_unitOfCoprime a hco,
      ← hu, Units.mul_inv]
  have hmod : a * b ≡ 1 [MOD m] := (ZMod.natCast_eq_natCast_iff _ _ _).mp hmul
  have h1 : a * b % m = 1 := by
    have h2 : (1 : Nat) % m = 1 := Nat.mod_eq_of_lt hm
    unfold Nat.ModEq at hmod
    omega
  exact ⟨b, invert_eq_of hb h1, h1, hb⟩

theorem invert_two_spec {n t : Nat} (h : invert 2 n = some t) :
    2 ≤ n ∧ n % 2 = 1 ∧ t = (n + 1) / 2 ∧ t * 2 = n + 1 := by
  obtain ⟨h1, ht⟩ := invert_spec h
  have hn : 2 ≤ n := by
    rcases Nat.lt_or_ge n 2 with hl | hl
    · have h0 : n = 1 := by omega
      subst h0
      omega
    · exact hl
  have hodd : n % 2 = 1 := by
    rcases Nat.even_or_odd n with he | ho
    · exfalso
      obtain ⟨k, hk⟩ := he
      have hdvd : (2 : Nat) ∣ n := ⟨k, by omega⟩
      have h2 : (2 : Nat) ∣ 2 * t % n := (Nat.dvd_mod_iff hdvd).mpr ⟨t, rfl⟩
      rw [h1] at h2
      omega
    · exact Nat.odd_iff.mp ho
  have ht2 : t = (n + 1) / 2 := by
    have hb : (n + 1) / 2 < n := by omega
    have h1b : 2 * ((n + 1) / 2) % n = 1 := by
      have hx : 2 * ((n + 1) / 2) = n + 1 := by omega
      rw [hx, Nat.add_mod_left, Nat.mod_eq_of_lt hn]
    exact inverse_unique ht hb h1 h1b
  exact ⟨hn, hodd, ht2, by omega⟩

/-!  Helper lemmas about the group constructor. -/

theorem group_fields {p q gTick : Nat} {G : Group}
    (hG : withSafePrimesUnchecked p q gTick = some G) :
    G.n = p * q ∧ G.nn = G.n * G.n ∧ G.h = G.n + 1 ∧ G.n2d2 = G.nn / 2 ∧
    G.n2d4 = G.nn / 2 / 2 ∧ G.nd4 = G.n / 4 ∧ G.g = gTick ^ (G.nn * 2) % G.nn ∧
    G.two_inv_two = G.n + 1 ∧ G.n % 2 = 1 ∧ 2 ≤ G.n := by
  unfold withSafePrimesUnchecked at hG
  split at hG
  · exact absurd hG (by simp)
  · rw [Option.map_eq_some'] at hG
    obtain ⟨t, ht, hGt⟩ := hG
    obtain ⟨hn2, hodd, _, ht2⟩ := invert_two_spec ht
    subst hGt
    exact ⟨rfl, rfl, rfl, rfl, rfl, rfl, rfl, by simpa using ht2, hodd, hn2⟩

theorem group_nn_pos {p q gTick : Nat} {G : Group}
    (hG : withSafePrimesUnchecked p q gTick = some G) : 1 < G.nn := by
  obtain ⟨_, hnn, _, _, _, _, _, _, _, hn2⟩ := group_fields hG
  rw [hnn]
  exact Nat.one_lt_mul_iff.mpr (by omega)

theorem coprime_mod_left {x m : Nat} (h : Nat.Coprime x m) :
    Nat.Coprime (x % m) m := by
  unfold Nat.Coprime at h ⊢
  calc Nat.gcd (x % m) m = Nat.gcd m x := (Nat.gcd_rec m x).symm
    _ = 1 := by rw [Nat.gcd_comm]; exact h

theorem g_coprime {p q gTick : Nat} {G : Group}
    (hG : withSafePrimesUnchecked p q gTick = some G)
    (hco : Nat.Coprime gTick (p * q)) : Nat.Coprime G.g G.nn := by
  obtain ⟨hn, hnn, _, _, _, _, hg, _, _, _⟩ := group_fields hG
  rw [hg]
  have h1 : Nat.Coprime gTick G.nn := by
    rw [hnn, hn]
    exact Nat.Coprime.mul_right hco hco
  exact coprime_mod_left (Nat.Coprime.pow_left _ h1)

/-!  Helper lemmas about the absolute value. -/

theorem abs_le_half {G : Group} (h2 : G.n2d2 = G.nn / 2) (hpos : 0 < G.nn)
    (a : Nat) : G.abs a ≤ G.nn / 2 := by
  unfold Group.abs
  have hlt : a % G.nn < G.nn := Nat.mod_lt _ hpos
  split
  · next h => rw [h2] at h; omega
  · next h => rw [h2] at h; omega

theorem abs_idem {G : Group} (h2 : G.n2d2 = G.nn / 2) (hpos : 0 < G.nn)
    (a : Nat) : G.abs (G.abs a) = G.abs a := by
  unfold Group.abs
  have hlt : a % G.nn < G.nn := Nat.mod_lt _ hpos
  split
  · next h =>
    rw [h2] at h
    have hx : (G.nn - a % G.nn) % G.nn = G.nn - a % G.nn :=
      Nat.mod_eq_of_lt (by omega)
    rw [hx]
    split
    · next h3 => exfalso; rw [h2] at h3; omega
    · rfl
  · next h =>
    rw [Nat.mod_eq_of_lt hlt]
    split
    · next h3 => exact absurd h3 h
    · rfl

theorem abs_sq_modeq {G : Group} (hpos : 0 < G.nn) (a : Nat) :
    G.abs a ^ 2 ≡ a ^ 2 [MOD G.nn] := by
  unfold Group.abs
  have hlt : a % G.nn < G.nn := Nat.mod_lt _ hpos
  have hbase : a % G.nn ≡ a [MOD G.nn] := Nat.mod_modEq a G.nn
  split
  · have hs : (G.nn - a % G.nn) ^ 2 ≡ (a % G.nn) ^ 2 [MOD G.nn] := by
      rw [← ZMod.natCast_eq_natCast_iff]
      push_cast [Nat.cast_sub hlt.le]
      rw [ZMod.natCast_self, zero_sub, neg_sq]
    exact hs.trans (hbase.pow 2)
  · exact hbase.pow 2

/-- C7: for a in the interval from 0 to n squared, abs returns n squared
minus a when a exceeds the half modulus and a itself otherwise; it is
idempotent, squares to a value congruent to a squared modulo n squared, and
always lands in the interval up to half the modulus. -/
theorem c7_abs_canonical {p q gTick : Nat} {G : Group} (a : Nat)
    (hG : withSafePrimesUnchecked p q gTick = some G) (ha : a < G.nn) :
    G.abs a = (if G.nn / 2 < a then G.nn - a else a) ∧
    G.abs (G.abs a) = G.abs a ∧
    G.abs a ^ 2 ≡ a ^ 2 [MOD G.nn] ∧ G.abs a ≤ G.nn / 2 := by
  obtain ⟨_, _, _, h2, _, _, _, _, _, _⟩ := group_fields hG
  have hpos : 0 < G.nn := by have := group_nn_pos hG; omega
  refine ⟨?_, abs_idem h2 hpos a, abs_sq_modeq hpos a, abs_le_half h2 hpos a⟩
  unfold Group.abs
  rw [Nat.mod_eq_of_lt ha, h2]

/-- Witness for C7 at the concrete group and the input 1000. -/
theorem c7_abs_canonical_witness :
    (withSafePrimesUnchecked 5 7 2 = some GroupC ∧ 1000 < GroupC.nn) ∧
    (GroupC.abs 1000 = (if GroupC.nn / 2 < 1000 then GroupC.nn - 1000 else 1000) ∧
     GroupC.abs (GroupC.abs 1000) = GroupC.abs 1000 ∧
     GroupC.abs 1000 ^ 2 ≡ 1000 ^ 2 [MOD GroupC.nn] ∧
     GroupC.abs 1000 ≤ GroupC.nn / 2) :=
  ⟨⟨by decide, by decide⟩,
    @c7_abs_canonical 5 7 2 GroupC 1000 (by decide) (by decide)⟩

/-- C5: the PartialEq implementation compares the e-vectors only along their
zip, ignoring length: a concrete pair with e-vectors of lengths 0 and 1 and
equal u and v compares equal, and a concrete triple shows the relation is
not even transitive, contradicting the claim and the derived Eq contract. -/
theorem c5_eq_ignores_length :
    vctEq ⟨1, 1, []⟩ ⟨1, 1, [5]⟩ = true ∧
    (VerifiableCipherText.mk 1 1 []).e.length ≠
      (VerifiableCipherText.mk 1 1 [5]).e.length ∧
    vctEq ⟨1, 1, [7]⟩ ⟨1, 1, []⟩ = true ∧
    vctEq ⟨1, 1, []⟩ ⟨1, 1, [8]⟩ = true ∧
    vctEq ⟨1, 1, [7]⟩ ⟨1, 1, [8]⟩ = false := by
  decide

/-- C3: encrypt accepts the boundary messages 0 and n minus 1, but it also
accepts the message equal to n, because the source checks m strictly greater
than n; the resulting ciphertext then decrypts to 0 instead of n, violating
the documented requirement that messages be below n. -/
theorem c3_message_n_accepted :
    (ekC.encrypt oracleNil [1] [0] 2).isOk = true ∧
    (ekC.encrypt oracleNil [1] [34] 2).isOk = true ∧
    GroupC.n = 35 ∧
    (ekC.encrypt oracleNil [1] [35] 2).isOk = true ∧
    dkC.decrypt oracleNil [1]
      (ekC.encrypt_with_blinding_factor oracleNil [1] [35] 2) = .ok [0] := by
  decide

/-- C8: the Fiat-Shamir challenge absorbs, after the context label, exactly
the labelled values nonce, n, g, y2, y3, the concatenated y1, the
ciphertext components u, concatenated e, v, then the test-value components
u, concatenated e, v, in this order, and extracts 32 bytes under the
challenge label interpreted as a big-endian integer. -/
theorem c8_fiat_shamir_transcript (ek : EncryptionKey) (O : TOracle)
    (nonce : List Nat) (ciphertext test_values : VerifiableCipherText) :
    ek.fiat_shamir O nonce ciphertext test_values =
      fromBytesBE (O [TOp.init "camenisch-shoup verifiable encryption proof",
        TOp.append "nonce" nonce,
        TOp.append "n" (toBytes ek.group.n),
        TOp.append "g" (toBytes ek.group.g),
        TOp.append "y2" (toBytes ek.y2),
        TOp.append "y3" (toBytes ek.y3),
        TOp.append "y1" ((ek.y1.map toBytes).flatten),
        TOp.append "ciphertext.u" (toBytes ciphertext.u),
        TOp.append "ciphertext.e" ((ciphertext.e.map toBytes).flatten),
        TOp.append "ciphertext.v" (toBytes ciphertext.v),
        TOp.append "ciphertext_test.u" (toBytes test_values.u),
        TOp.append "ciphertext_test.e" ((test_values.e.map toBytes).flatten),
        TOp.append "ciphertext_test.v" (toBytes test_values.v)]
        "verifiable encryption proof challenge" 32) := rfl

/-- C10: the hash H(u, e, domain) sees the e-vector only through the
concatenation of the minimal big-endian encodings of its entries, so any two
vectors with the same concatenated encoding hash identically. -/
theorem c10_hash_depends_on_concat (G : Group) (O : TOracle) (u : Nat)
    (domain : List Nat) (e eT : List Nat)
    (h : (e.map toBytes).flatten = (eT.map toBytes).flatten) :
    G.hash O u e domain = G.hash O u eT domain := by
  unfold Group.hash
  rw [h]

/-- Witness for C10: the vectors containing 258 and the pair 1, 2 encode to
the same byte string although they differ as vectors, and they hash
identically. -/
theorem c10_hash_depends_on_concat_witness :
    (([258].map toBytes).flatten = ([1, 2].map toBytes).flatten ∧
      ([258] : List Nat) ≠ [1, 2]) ∧
    GroupC.hash oracleNil 1 [258] [3] = GroupC.hash oracleNil 1 [1, 2] [3] :=
  ⟨⟨by decide, by decide⟩,
    c10_hash_depends_on_concat GroupC oracleNil 1 [3] [258] [1, 2] (by decide)⟩

/-!  Bridging lemmas for modular exponentiation with nonnegative exponents. -/

theorem pow_nat_eq (G : Group) (a : Nat) (k : Nat) :
    G.pow a (k : Int) = a ^ k % G.nn := by
  unfold Group.pow powInt
  rw [if_neg (by omega), Int.toNat_natCast]

theorem g_pow_nat_eq (G : Group) (k : Nat) :
    G.g_pow (k : Int) = G.g ^ k % G.nn := by
  unfold Group.g_pow powInt
  rw [if_neg (by omega), Int.toNat_natCast]

theorem h_pow_nat_eq (G : Group) (k : Nat) :
    G.h_pow (k : Int) = G.h ^ k % G.nn := by
  unfold Group.h_pow powInt
  rw [if_neg (by omega), Int.toNat_natCast]

/-!  Inversion of a successful encrypt_and_prove_blindings call. -/

theorem eapb_spec {ek : EncryptionKey} {O : TOracle}
    {nonce msgs blindings : List Nat} {r rTick : Nat}
    {ct : VerifiableCipherText} {pf : VerifiableEncryptionProof}
    (h : ek.encrypt_and_prove_blindings O nonce msgs blindings r rTick =
      .ok (ct, pf)) :
    msgs.length = blindings.length ∧ msgs.length ≤ ek.y1.length ∧
    (∀ b ∈ blindings, b ≠ 0) ∧
    ct = ek.encrypt_with_blinding_factor O nonce msgs r ∧
    pf.challenge = ek.fiat_shamir O nonce ct
      (ek.ciphertext_test_values rTick (ek.group.hash O ct.u ct.e nonce)
        blindings) ∧
    pf.r = ek.schnorr rTick pf.challenge r ∧
    pf.m = (msgs.zip blindings).map fun mb => ek.schnorr mb.2 pf.challenge mb.1 := by
  unfold EncryptionKey.encrypt_and_prove_blindings at h
  split at h
  · exact absurd h (by simp)
  · split at h
    · exact absurd h (by simp)
    · next hlen hcap =>
      cases hidx : blindings.findIdx? (fun b => b == 0) with
      | some i => rw [hidx] at h; exact absurd h (by simp)
      | none =>
        rw [hidx] at h
        simp only [Except.ok.injEq, Prod.mk.injEq] at h
        obtain ⟨hct, hpf⟩ := h
        subst hct
        subst hpf
        refine ⟨by omega, by omega, ?_, rfl, rfl, rfl, rfl⟩
        intro b hb hb0
        subst hb0
        have := List.findIdx?_eq_none_iff.mp hidx
        have hbb := this 0 hb
        simp at hbb

/-- C4 (amended): the challenge emitted by encrypt_and_prove_blindings is a
nonnegative integer, but the responses are signed: r-hat equals r-prime
minus the product of the challenge and r taken by mul modulo n squared, and
each m-hat equals the blinding minus the product of the challenge and the
message, both computed by an unreduced integer subtraction that can go
negative. -/
theorem c4_responses_signed (ek : EncryptionKey) (O : TOracle)
    (nonce msgs blindings : List Nat) (r rTick : Nat)
    (ct : VerifiableCipherText) (pf : VerifiableEncryptionProof)
    (h : ek.encrypt_and_prove_blindings O nonce msgs blindings r rTick =
      .ok (ct, pf)) :
    0 ≤ (pf.challenge : Int) ∧
    pf.r = (rTick : Int) - (ek.group.mul pf.challenge r : Int) ∧
    pf.m = (msgs.zip blindings).map fun mb =>
      (mb.2 : Int) - (ek.group.mul pf.challenge mb.1 : Int) := by
  obtain ⟨-, -, -, -, -, hr, hm⟩ := eapb_spec h
  exact ⟨Int.natCast_nonneg _, hr, hm⟩

/-- Witness for C4 at a concrete successful call. -/
theorem c4_responses_signed_witness :
    ekC.encrypt_and_prove_blindings oracleNil [1] [2] [3] 2 3 =
      .ok (⟨226, 226, [71]⟩, ⟨0, 3, [3]⟩) ∧
    (0 ≤ ((VerifiableEncryptionProof.mk 0 3 [3]).challenge : Int) ∧
     (VerifiableEncryptionProof.mk 0 3 [3]).r =
       ((3 : Nat) : Int) -
         (ekC.group.mul (VerifiableEncryptionProof.mk 0 3 [3]).challenge 2 : Int) ∧
     (VerifiableEncryptionProof.mk 0 3 [3]).m =
       (([2] : List Nat).zip [3]).map fun mb =>
         (mb.2 : Int) -
           (ekC.group.mul (VerifiableEncryptionProof.mk 0 3 [3]).challenge mb.1 : Int)) :=
  ⟨by decide,
    c4_responses_signed ekC oracleNil [1] [2] [3] 2 3 ⟨226, 226, [71]⟩
      ⟨0, 3, [3]⟩ (by decide)⟩

/-- C4 counterexample: a successful call of encrypt_and_prove_blindings
whose emitted response r-hat (and m-hat) is the negative integer minus 766,
refuting the claim that every emitted proof component is nonnegative. -/
theorem c4_counterexample :
    ekC.encrypt_and_prove_blindings oracle997 [5] [2] [3] 2 3 =
      .ok (⟨226, 1, [71]⟩, ⟨997, -766, [-766]⟩) ∧
    (VerifiableEncryptionProof.mk 997 (-766) [-766]).r < 0 := by
  decide

/-- C9: in every successful encrypt_and_prove_blindings call the returned
ciphertext carries the abs-reduced v, while the Schnorr test commitment fed
to the Fiat-Shamir hash carries the unreduced v: the challenge in the proof
is exactly the Fiat-Shamir value over test values whose u is g to the
doubled r-prime, whose e-components encrypt the doubled blindings, and
whose v is the raw power with no abs applied. -/
theorem c9_test_v_not_abs (ek : EncryptionKey) (O : TOracle)
    (nonce msgs blindings : List Nat) (r rTick : Nat)
    (ct : VerifiableCipherText) (pf : VerifiableEncryptionProof)
    (h : ek.encrypt_and_prove_blindings O nonce msgs blindings r rTick =
      .ok (ct, pf)) :
    ct.v = ek.group.abs (ek.group.pow
      (ek.group.mul (ek.group.pow ek.y3
        ((ek.group.hash O ct.u ct.e nonce : Nat) : Int)) ek.y2) (r : Int)) ∧
    pf.challenge = ek.fiat_shamir O nonce ct
      ⟨ek.group.g_pow ((rTick * 2 : Nat) : Int),
       ek.group.pow (ek.group.mul (ek.group.pow ek.y3
         ((ek.group.hash O ct.u ct.e nonce : Nat) : Int)) ek.y2)
         ((rTick * 2 : Nat) : Int),
       ek.compute_e (blindings.map fun m => m * 2) ((rTick * 2 : Nat) : Int)⟩ := by
  obtain ⟨-, -, -, hct, hch, -, -⟩ := eapb_spec h
  constructor
  · subst hct
    rfl
  · rw [hch]
    rfl

/-- Witness for C9 at a concrete successful call. -/
theorem c9_test_v_not_abs_witness :
    ekC.encrypt_and_prove_blindings oracleNil [1] [2] [3] 2 3 =
      .ok (⟨226, 226, [71]⟩, ⟨0, 3, [3]⟩) ∧
    ((VerifiableCipherText.mk 226 226 [71]).v = ekC.group.abs (ekC.group.pow
      (ekC.group.mul (ekC.group.pow ekC.y3
        ((ekC.group.hash oracleNil (VerifiableCipherText.mk 226 226 [71]).u
          (VerifiableCipherText.mk 226 226 [71]).e [1] : Nat) : Int)) ekC.y2)
      ((2 : Nat) : Int)) ∧
    (VerifiableEncryptionProof.mk 0 3 [3]).challenge =
      ekC.fiat_shamir oracleNil [1] ⟨226, 226, [71]⟩
      ⟨ekC.group.g_pow ((3 * 2 : Nat) : Int),
       ekC.group.pow (ekC.group.mul (ekC.group.pow ekC.y3
         ((ekC.group.hash oracleNil (VerifiableCipherText.mk 226 226 [71]).u
           (VerifiableCipherText.mk 226 226 [71]).e [1] : Nat) : Int)) ekC.y2)
         ((3 * 2 : Nat) : Int),
       ekC.compute_e (([3] : List Nat).map fun m => m * 2) ((3 * 2 : Nat) : Int)⟩) :=
  ⟨by decide,
    c9_test_v_not_abs ekC oracleNil [1] [2] [3] 2 3 ⟨226, 226, [71]⟩ ⟨0, 3, [3]⟩
      (by decide)⟩

/-!  The decryption loop can only fail with InvalidCiphertext or
DecryptionFailed, never with the two check errors. -/

theorem decryptLoop_errors (dk : DecryptionKey) (ctu : Nat) :
    ∀ (l : List (Nat × Nat)) (i : Nat),
      dk.decryptLoop ctu i l ≠ .error .AbsCheckFailed ∧
      dk.decryptLoop ctu i l ≠ .error .ConsistencyFailed := by
  intro l
  induction l with
  | nil => intro i; simp [DecryptionKey.decryptLoop]
  | cons hd tl ih =>
    intro i
    obtain ⟨ee, xx⟩ := hd
    simp only [DecryptionKey.decryptLoop]
    cases hinv : invert (dk.group.pow ctu (xx : Int)) dk.group.nn with
    | none => simp
    | some b =>
      simp only
      split
      · simp
      · cases hrec : dk.decryptLoop ctu (i + 1) tl with
        | ok ms => simp [Except.map]
        | error err =>
          have hih := ih (i + 1)
          rw [hrec] at hih
          simp only [Except.map]
          constructor
          · intro hcontra
            apply hih.1
            simp only [Except.error.injEq] at hcontra
            rw [hcontra]
          · intro hcontra
            apply hih.2
            simp only [Except.error.injEq] at hcontra
            rw [hcontra]

/-- C6: for a ciphertext whose e-vector fits the key capacity, decrypt
fails with AbsCheckFailed exactly when v is not in absolute form, and for a
canonical v it fails with ConsistencyFailed exactly when u raised to twice
the hash combination of the secret exponents is not congruent to v squared
modulo n squared. -/
theorem c6_decrypt_checks (dk : DecryptionKey) (O : TOracle)
    (domain : List Nat) (ct : VerifiableCipherText)
    (hL : ct.e.length ≤ dk.x1.length) :
    (dk.decrypt O domain ct = .error .AbsCheckFailed ↔
      ct.v ≠ dk.group.abs ct.v) ∧
    (ct.v = dk.group.abs ct.v →
      (dk.decrypt O domain ct = .error .ConsistencyFailed ↔
        ¬ ct.u ^ (2 * (dk.group.hash O ct.u ct.e domain * dk.x3 + dk.x2)) ≡
            ct.v ^ 2 [MOD dk.group.nn])) := by
  have hloop := decryptLoop_errors dk ct.u (ct.e.zip dk.x1) 0
  have hcap : ¬ dk.x1.length < ct.e.length := by omega
  have hkey : dk.group.pow ct.u
        (((dk.group.hash O ct.u ct.e domain * dk.x3 + dk.x2) * 2 : Nat) : Int) =
        dk.group.pow ct.v ((2 : Nat) : Int) ↔
      ct.u ^ (2 * (dk.group.hash O ct.u ct.e domain * dk.x3 + dk.x2)) ≡
        ct.v ^ 2 [MOD dk.group.nn] := by
    rw [pow_nat_eq, pow_nat_eq, Nat.mul_comm 2]
    exact Iff.rfl
  constructor
  · constructor
    · intro h
      by_contra habs
      simp only [DecryptionKey.decrypt] at h
      rw [if_neg hcap, if_neg (not_ne_iff.mpr habs)] at h
      split at h
      · simp at h
      · exact hloop.1 h
    · intro hne
      simp only [DecryptionKey.decrypt]
      rw [if_neg hcap, if_pos hne]
  · intro habs
    constructor
    · intro h
      simp only [DecryptionKey.decrypt] at h
      rw [if_neg hcap, if_neg (not_ne_iff.mpr habs)] at h
      split at h
      · next hcond =>
        intro hmod
        apply hcond
        have hcast : ((2 : Nat) : Int) = (2 : Int) := by norm_cast
        rw [← hcast]
        exact hkey.mpr hmod
      · exact absurd h hloop.2
    · intro hmod
      simp only [DecryptionKey.decrypt]
      rw [if_neg hcap, if_neg (not_ne_iff.mpr habs), if_pos ?hc]
      case hc =>
        intro heq
        apply hmod
        apply hkey.mp
        have hcast : ((2 : Nat) : Int) = (2 : Int) := by norm_cast
        rw [hcast]
        exact heq

/-- Witness for C6 at a concrete key and ciphertext. -/
theorem c6_decrypt_checks_witness :
    ((VerifiableCipherText.mk 1 700 [9]).e.length ≤ dkC.x1.length) ∧
    ((dkC.decrypt oracleNil [1] ⟨1, 700, [9]⟩ = .error .AbsCheckFailed ↔
      (VerifiableCipherText.mk 1 700 [9]).v ≠
        dkC.group.abs (VerifiableCipherText.mk 1 700 [9]).v) ∧
    ((VerifiableCipherText.mk 1 700 [9]).v =
        dkC.group.abs (VerifiableCipherText.mk 1 700 [9]).v →
      (dkC.decrypt oracleNil [1] ⟨1, 700, [9]⟩ = .error .ConsistencyFailed ↔
        ¬ (VerifiableCipherText.mk 1 700 [9]).u ^
            (2 * (dkC.group.hash oracleNil (VerifiableCipherText.mk 1 700 [9]).u
              (VerifiableCipherText.mk 1 700 [9]).e [1] * dkC.x3 + dkC.x2)) ≡
            (VerifiableCipherText.mk 1 700 [9]).v ^ 2 [MOD dkC.group.nn]))) :=
  ⟨by decide, c6_decrypt_checks dkC oracleNil [1] ⟨1, 700, [9]⟩ (by decide)⟩

/-!  Arithmetic helpers for decryption correctness. -/

theorem modeq_eq_of_lt {a b N : Nat} (h : a ≡ b [MOD N]) (ha : a < N)
    (hb : b < N) : a = b := by
  have h2 := h
  unfold Nat.ModEq at h2
  rwa [Nat.mod_eq_of_lt ha, Nat.mod_eq_of_lt hb] at h2

theorem one_add_n_pow (n t : Nat) : (n + 1) ^ t ≡ 1 + t * n [MOD n * n] := by
  induction t with
  | zero => simpa using Nat.ModEq.refl 1
  | succ k ih =>
    have h1 : (n + 1) ^ (k + 1) = (n + 1) ^ k * (n + 1) := by ring
    have h2 : (n + 1) ^ k * (n + 1) ≡ (1 + k * n) * (n + 1) [MOD n * n] :=
      ih.mul_right _
    have h3 : (1 + k * n) * (n + 1) = 1 + (k + 1) * n + k * (n * n) := by ring
    have h4 : 1 + (k + 1) * n + k * (n * n) ≡ 1 + (k + 1) * n + 0 [MOD n * n] :=
      Nat.ModEq.add_left _ ((Nat.modEq_zero_iff_dvd).mpr ⟨k, by ring⟩)
    rw [h1]
    calc (n + 1) ^ k * (n + 1) ≡ (1 + k * n) * (n + 1) [MOD n * n] := h2
      _ = 1 + (k + 1) * n + k * (n * n) := h3
      _ ≡ 1 + (k + 1) * n + 0 [MOD n * n] := h4
      _ = 1 + (k + 1) * n := by ring

theorem pow_mod_coprime {x N : Nat} (h : Nat.Coprime x N) (k : Nat) :
    Nat.Coprime (x ^ k % N) N :=
  coprime_mod_left (Nat.Coprime.pow_left _ h)

theorem pow_two_eq (G : Group) (a : Nat) : G.pow a 2 = a ^ 2 % G.nn := by
  unfold Group.pow powInt
  rw [if_neg (by omega)]
  rfl

/-!  Correctness of the decryption loop on honestly encrypted components. -/

theorem decryptLoop_correct (dk : DecryptionKey)
    (hnn : dk.group.nn = dk.group.n * dk.group.n)
    (hh : dk.group.h = dk.group.n + 1)
    (htit : dk.group.two_inv_two = dk.group.n + 1) (hn2 : 2 ≤ dk.group.n)
    (hgc : Nat.Coprime dk.group.g dk.group.nn) (r : Nat) :
    ∀ (msgs xs : List Nat) (i : Nat),
      msgs.length ≤ xs.length → (∀ m ∈ msgs, m < dk.group.n) →
      dk.decryptLoop (dk.group.g_pow (r : Int)) i
        (((msgs.zip (xs.map fun (x : Nat) => dk.group.g_pow (x : Int))).map
            fun (my : Nat × Nat) =>
            dk.group.mul (dk.group.pow my.2 (r : Int))
              (dk.group.h_pow (my.1 : Int))).zip xs) = .ok msgs := by
  intro msgs
  induction msgs with
  | nil => intro xs i _ _; simp [DecryptionKey.decryptLoop]
  | cons m ms ih =>
    intro xs i hlen hbound
    cases xs with
    | nil => simp at hlen
    | cons x xt =>
      have hN1 : 1 < dk.group.nn := by
        have h22 := Nat.mul_le_mul hn2 hn2
        omega
      have hNpos : 0 < dk.group.nn := by omega
      have hmlt : m < dk.group.n := hbound m (by simp)
      simp only [List.map_cons, List.zip_cons_cons, DecryptionKey.decryptLoop]
      have hbase : Nat.Coprime (dk.group.pow (dk.group.g_pow (r : Int)) (x : Int))
          dk.group.nn := by
        rw [pow_nat_eq, g_pow_nat_eq]
        exact pow_mod_coprime (pow_mod_coprime hgc r) x
      obtain ⟨b, hbinv, hbmul, hblt⟩ := invert_of_coprime hN1 hbase
      simp only [hbinv]
      have hone : (1 : Nat) % dk.group.nn = 1 := Nat.mod_eq_of_lt hN1
      -- the inverse cancels g to the r times x
      have hbase1 : dk.group.pow (dk.group.g_pow (r : Int)) (x : Int) =
          dk.group.g ^ (r * x) % dk.group.nn := by
        rw [pow_nat_eq, g_pow_nat_eq, ← Nat.pow_mod, ← Nat.pow_mul]
      have hcancel : dk.group.g ^ (r * x) * b ≡ 1 [MOD dk.group.nn] := by
        have h1 : dk.group.pow (dk.group.g_pow (r : Int)) (x : Int) * b ≡ 1
            [MOD dk.group.nn] := by
          show _ % _ = _ % _
          rw [hbmul, hone]
        rw [hbase1] at h1
        exact ((Nat.mod_modEq _ _).symm.mul_right b).trans h1
      -- the head ciphertext component
      have hee : dk.group.mul (dk.group.pow (dk.group.g_pow (x : Int)) (r : Int))
          (dk.group.h_pow (m : Int)) ≡
          dk.group.g ^ (x * r) * (dk.group.n + 1) ^ m [MOD dk.group.nn] := by
        unfold Group.mul
        have hb2 : dk.group.pow (dk.group.g_pow (x : Int)) (r : Int) =
            dk.group.g ^ (x * r) % dk.group.nn := by
          rw [pow_nat_eq, g_pow_nat_eq, ← Nat.pow_mod, ← Nat.pow_mul]
        rw [hb2, h_pow_nat_eq, hh]
        exact (Nat.mod_modEq _ _).trans
          ((Nat.mod_modEq _ _).mul (Nat.mod_modEq _ _))
      -- the product with the inverse is h to the m
      have he' : dk.group.mul b
          (dk.group.mul (dk.group.pow (dk.group.g_pow (x : Int)) (r : Int))
            (dk.group.h_pow (m : Int))) ≡
          (dk.group.n + 1) ^ m [MOD dk.group.nn] := by
        calc dk.group.mul b _ ≡
            b * dk.group.mul (dk.group.pow (dk.group.g_pow (x : Int)) (r : Int))
              (dk.group.h_pow (m : Int)) [MOD dk.group.nn] := Nat.mod_modEq _ _
          _ ≡ b * (dk.group.g ^ (x * r) * (dk.group.n + 1) ^ m)
              [MOD dk.group.nn] := hee.mul_left b
          _ = dk.group.g ^ (r * x) * b * (dk.group.n + 1) ^ m := by ring_nf
          _ ≡ 1 * (dk.group.n + 1) ^ m [MOD dk.group.nn] := hcancel.mul_right _
          _ = (dk.group.n + 1) ^ m := one_mul _
      -- the extracted value is exactly 1 + m n
      have hmn_lt : 1 + m * dk.group.n < dk.group.nn := by
        have key : (m + 1) * dk.group.n ≤ dk.group.n * dk.group.n :=
          Nat.mul_le_mul_right _ (Nat.succ_le_of_lt hmlt)
        have expand : (m + 1) * dk.group.n = m * dk.group.n + dk.group.n := by
          ring
        omega
      have hm_hat : dk.group.pow
          (dk.group.mul b
            (dk.group.mul (dk.group.pow (dk.group.g_pow (x : Int)) (r : Int))
              (dk.group.h_pow (m : Int)))) ((dk.group.two_inv_two : Nat) : Int) =
          1 + m * dk.group.n := by
        rw [pow_nat_eq, htit]
        refine modeq_eq_of_lt ?_ (Nat.mod_lt _ hNpos) hmn_lt
        calc _ ≡ ((dk.group.n + 1) ^ m) ^ (dk.group.n + 1) [MOD dk.group.nn] :=
              (Nat.mod_modEq _ _).trans (he'.pow _)
          _ = (dk.group.n + 1) ^ (m * (dk.group.n + 1)) := by
              rw [← Nat.pow_mul]
          _ ≡ 1 + m * (dk.group.n + 1) * dk.group.n [MOD dk.group.nn] := by
              rw [hnn]
              exact one_add_n_pow _ _
          _ = 1 + m * dk.group.n + m * (dk.group.n * dk.group.n) := by ring
          _ ≡ 1 + m * dk.group.n + 0 [MOD dk.group.nn] := by
              refine Nat.ModEq.add_left _ ((Nat.modEq_zero_iff_dvd).mpr ?_)
              rw [hnn]
              exact ⟨m, by ring⟩
          _ = 1 + m * dk.group.n := by ring
      rw [hm_hat]
      have hcheck : (1 + m * dk.group.n) % dk.group.n = 1 := by
        rw [Nat.add_mul_mod_self_right, Nat.mod_eq_of_lt (by omega)]
      rw [if_neg (by rw [hcheck]; omega)]
      have hrec := ih xt (i + 1) (by simpa using hlen)
        (fun mm hmm => hbound mm (by simp [hmm]))
      simp only [List.zip] at hrec
      rw [hrec]
      have hdiv : (1 + m * dk.group.n - 1) / dk.group.n = m := by
        have hsub : 1 + m * dk.group.n - 1 = m * dk.group.n := by omega
        rw [hsub, Nat.mul_div_cancel _ (by omega)]
      simp only [Except.map]
      rw [hdiv]

/-!  Bridging modular exponentiation to the unit group of ZMod. -/
theorem powInt_eq_val_zpow {a N : Nat} (hN : 1 < N) (hco : Nat.Coprime a N)
    (e : Int) :
    powInt a e N =
      ((ZMod.unitOfCoprime a hco ^ e : (ZMod N)ˣ) : ZMod N).val := by
  haveI : NeZero N := ⟨by omega⟩
  unfold powInt
  split
  · next he =>
    obtain ⟨b, hbinv, hbmul, hblt⟩ := invert_of_coprime hN hco
    rw [hbinv]
    have h1 : (a : ZMod N) * (b : ZMod N) = 1 := by
      have hmod : a * b ≡ 1 [MOD N] := by
        unfold Nat.ModEq
        rw [hbmul, Nat.mod_eq_of_lt hN]
      have := (ZMod.natCast_eq_natCast_iff _ _ _).mpr hmod
      push_cast at this
      exact this
    have h2 : ((ZMod.unitOfCoprime a hco : (ZMod N)ˣ) : ZMod N) * (b : ZMod N) = 1 := by
      rw [ZMod.coe_unitOfCoprime]
      exact h1
    have h3 : (((ZMod.unitOfCoprime a hco)⁻¹ : (ZMod N)ˣ) : ZMod N) =
        (b : ZMod N) := Units.inv_eq_of_mul_eq_one_right h2
    have htn : (((-e).toNat : ℕ) : ℤ) = -e := Int.toNat_of_nonneg (by omega)
    have hzpow : (ZMod.unitOfCoprime a hco ^ e : (ZMod N)ˣ) =
        ((ZMod.unitOfCoprime a hco)⁻¹) ^ (-e).toNat := by
      calc (ZMod.unitOfCoprime a hco ^ e : (ZMod N)ˣ) =
          ZMod.unitOfCoprime a hco ^ (-(-e)) := by rw [neg_neg]
        _ = (ZMod.unitOfCoprime a hco ^ (-e))⁻¹ := zpow_neg _ _
        _ = (ZMod.unitOfCoprime a hco ^ (((-e).toNat : ℕ) : ℤ))⁻¹ := by
            rw [htn]
        _ = (ZMod.unitOfCoprime a hco ^ ((-e).toNat : ℕ))⁻¹ := by
            rw [zpow_natCast]
        _ = ((ZMod.unitOfCoprime a hco)⁻¹) ^ (-e).toNat := by rw [inv_pow]
    rw [hzpow]
    rw [Units.val_pow_eq_pow_val, h3, ← Nat.cast_pow, ZMod.val_natCast]
  · next he =>
    have he2 : 0 ≤ e := by omega
    rw [show (ZMod.unitOfCoprime a hco ^ e : (ZMod N)ˣ) =
        (ZMod.unitOfCoprime a hco) ^ e.toNat from by
      rw [← zpow_natCast, Int.toNat_of_nonneg he2]]
    rw [Units.val_pow_eq_pow_val, ZMod.coe_unitOfCoprime, ← Nat.cast_pow,
      ZMod.val_natCast]

theorem val_unit_pow_nat {N : Nat} [NeZero N] {a : Nat}
    (hco : Nat.Coprime a N) (k : Nat) :
    ((ZMod.unitOfCoprime a hco ^ k : (ZMod N)ˣ) : ZMod N).val = a ^ k % N := by
  rw [Units.val_pow_eq_pow_val, ZMod.coe_unitOfCoprime, ← Nat.cast_pow,
    ZMod.val_natCast]

theorem val_unit_inj {N : Nat} [NeZero N] {U V : (ZMod N)ˣ}
    (h : ((U : ZMod N)).val = ((V : ZMod N)).val) : U = V := by
  apply Units.ext
  exact ZMod.val_injective N h

theorem zpow_add_mul_order {N : Nat} (w : (ZMod N)ˣ) (n0 : ℕ)
    (hw : w ^ n0 = 1) (z k : ℤ) : w ^ (z + (n0 : ℤ) * k) = w ^ z := by
  rw [zpow_add, zpow_mul, zpow_natCast, hw, one_zpow, mul_one]

theorem schnorr_zpow_combine {N : Nat} (A : (ZMod N)ˣ) (c r t : ℤ) :
    (A ^ r) ^ (c * 2) * A ^ ((t - c * r) * 2) = A ^ (t * 2) := by
  rw [← zpow_mul, ← zpow_add]
  congr 1
  ring


theorem pow_val_zpow (G : Group) (hN : 1 < G.nn) (U : (ZMod G.nn)ˣ) (e : Int) :
    G.pow ((U : ZMod G.nn)).val e = ((U ^ e : (ZMod G.nn)ˣ) : ZMod G.nn).val := by
  haveI : NeZero G.nn := ⟨by omega⟩
  have hco : Nat.Coprime ((U : ZMod G.nn)).val G.nn :=
    ZMod.val_coe_unit_coprime U
  have hUeq : ZMod.unitOfCoprime ((U : ZMod G.nn)).val hco = U := by
    apply Units.ext
    rw [ZMod.coe_unitOfCoprime, ZMod.natCast_val, ZMod.cast_id]
  unfold Group.pow
  rw [powInt_eq_val_zpow hN hco, hUeq]

theorem mul_val (G : Group) (hN : 1 < G.nn) (U V : (ZMod G.nn)ˣ) :
    G.mul ((U : ZMod G.nn)).val ((V : ZMod G.nn)).val =
      ((U * V : (ZMod G.nn)ˣ) : ZMod G.nn).val := by
  haveI : NeZero G.nn := ⟨by omega⟩
  unfold Group.mul
  rw [Units.val_mul, ZMod.val_mul]

theorem g_pow_val (G : Group) (hN : 1 < G.nn) (hgc : Nat.Coprime G.g G.nn)
    (e : Int) :
    G.g_pow e =
      ((ZMod.unitOfCoprime G.g hgc ^ e : (ZMod G.nn)ˣ) : ZMod G.nn).val := by
  unfold Group.g_pow
  exact powInt_eq_val_zpow hN hgc e

theorem h_pow_val (G : Group) (hN : 1 < G.nn) (hhc : Nat.Coprime G.h G.nn)
    (e : Int) :
    G.h_pow e =
      ((ZMod.unitOfCoprime G.h hhc ^ e : (ZMod G.nn)ˣ) : ZMod G.nn).val := by
  unfold Group.h_pow
  exact powInt_eq_val_zpow hN hhc e

theorem pow_abs_even (G : Group) (hpos : 0 < G.nn) (a c : Nat) :
    G.pow (G.abs a) ((c : Int) * 2) = G.pow a ((c : Int) * 2) := by
  have hc2 : ((c : Int) * 2) = ((c * 2 : Nat) : Int) := by push_cast; ring
  rw [hc2, pow_nat_eq, pow_nat_eq, Nat.mul_comm c 2, Nat.pow_mul, Nat.pow_mul]
  exact (abs_sq_modeq hpos a).pow c

theorem h_unit_order (G : Group) (hN : 1 < G.nn)
    (hnn : G.nn = G.n * G.n) (hh : G.h = G.n + 1)
    (hhc : Nat.Coprime G.h G.nn) :
    ZMod.unitOfCoprime G.h hhc ^ G.n = 1 := by
  haveI : NeZero G.nn := ⟨by omega⟩
  apply Units.ext
  rw [Units.val_pow_eq_pow_val, ZMod.coe_unitOfCoprime]
  have hmod : G.h ^ G.n ≡ 1 [MOD G.nn] := by
    rw [hh, hnn]
    calc (G.n + 1) ^ G.n ≡ 1 + G.n * G.n [MOD G.n * G.n] := one_add_n_pow _ _
      _ = 1 + 1 * (G.n * G.n) := by ring
      _ ≡ 1 + 0 [MOD G.n * G.n] :=
          Nat.ModEq.add_left _ ((Nat.modEq_zero_iff_dvd).mpr ⟨1, by ring⟩)
      _ = 1 := by ring
  have := (ZMod.natCast_eq_natCast_iff _ _ _).mpr hmod
  push_cast at this
  rw [this]
  exact Units.val_one.symm

/-- C1: for every group built from two distinct safe primes with a seed
coprime to the modulus, every key of capacity at least one, every domain,
and every message vector that fits the capacity with all components below
n, decrypting an encryption of the vector succeeds and returns exactly the
vector. -/
theorem c1_decrypt_encrypt (p q gTick : Nat) (G : Group) (O : TOracle)
    (x1 : List Nat) (x2 x3 : Nat) (domain msgs : List Nat) (r : Nat)
    (hp : Nat.Prime p) (hps : Nat.Prime ((p - 1) / 2))
    (hq : Nat.Prime q) (hqs : Nat.Prime ((q - 1) / 2))
    (hG : withSafePrimesUnchecked p q gTick = some G)
    (hgt : Nat.Coprime gTick (p * q))
    (hL : 1 ≤ x1.length) (hlen : msgs.length ≤ x1.length)
    (hm : ∀ m ∈ msgs, m < G.n) (hr1 : 0 < r) (hr2 : r < G.nd4) :
    ((EncryptionKey.ofDecryptionKey ⟨x1, x2, x3, G⟩).encrypt O domain msgs
      r).bind
      (fun ct => (⟨x1, x2, x3, G⟩ : DecryptionKey).decrypt O domain ct) =
    .ok msgs := by
  obtain ⟨hn, hnn, hh, h2, _, _, hg, htit, hodd, hn2⟩ := group_fields hG
  have hN1 : 1 < G.nn := group_nn_pos hG
  have hNpos : 0 < G.nn := by omega
  have hgc : Nat.Coprime G.g G.nn := g_coprime hG hgt
  set ek := EncryptionKey.ofDecryptionKey ⟨x1, x2, x3, G⟩ with hek
  have hy1 : ek.y1 = x1.map fun (x : Nat) => G.g_pow (x : Int) := by rw [hek]; rfl
  have hy1len : ek.y1.length = x1.length := by rw [hy1, List.length_map]
  have hekg : ek.group = G := by rw [hek]; rfl
  -- encryption succeeds
  have hfind : msgs.findIdx? (fun m => decide (ek.group.n < m)) = none := by
    rw [List.findIdx?_eq_none_iff]
    intro x hx
    have hxm := hm x hx
    rw [hekg]
    simp only [decide_eq_false_iff_not]
    omega
  have henc : ek.encrypt O domain msgs r =
      .ok (ek.encrypt_with_blinding_factor O domain msgs r) := by
    unfold EncryptionKey.encrypt
    rw [if_neg (by rw [hy1len]; omega), hfind]
  rw [henc]
  show (⟨x1, x2, x3, G⟩ : DecryptionKey).decrypt O domain
    (ek.encrypt_with_blinding_factor O domain msgs r) = .ok msgs
  set ct := ek.encrypt_with_blinding_factor O domain msgs r with hct
  have hctu : ct.u = G.g_pow (r : Int) := by rw [hct, hek]; rfl
  have hcte : ct.e = (msgs.zip ek.y1).map fun (my : Nat × Nat) =>
      G.mul (G.pow my.2 (r : Int)) (G.h_pow (my.1 : Int)) := by rw [hct]; rfl
  have hctelen : ct.e.length = msgs.length := by
    rw [hcte]
    simp only [List.length_map, List.length_zip, hy1len]
    omega
  have hctv : ct.v = G.abs (G.pow
      (G.mul (G.pow ek.y3 ((G.hash O ct.u ct.e domain : Nat) : Int)) ek.y2)
      (r : Int)) := by rw [hct]; rfl
  -- decryption
  simp only [DecryptionKey.decrypt]
  rw [if_neg (by omega)]
  have habs : ct.v = G.abs ct.v := by
    rw [hctv]
    exact (abs_idem h2 hNpos _).symm
  rw [if_neg (not_ne_iff.mpr habs)]
  -- the consistency check passes
  have hy3 : ek.y3 = G.g_pow ((x3 : Nat) : Int) := by rw [hek]; rfl
  have hy2 : ek.y2 = G.g_pow ((x2 : Nat) : Int) := by rw [hek]; rfl
  have hcons : G.pow ct.u
      (((G.hash O ct.u ct.e domain * x3 + x2) * 2 : Nat) : Int) =
      G.pow ct.v 2 := by
    set H := G.hash O ct.u ct.e domain with hHdef
    have hlhs : G.pow ct.u (((H * x3 + x2) * 2 : Nat) : Int) =
        G.g ^ (r * ((H * x3 + x2) * 2)) % G.nn := by
      rw [hctu, pow_nat_eq, g_pow_nat_eq, ← Nat.pow_mod, ← Nat.pow_mul]
    -- v squared is congruent to the raw power squared
    have hw : G.pow (G.mul (G.pow ek.y3 ((H : Nat) : Int)) ek.y2) (r : Int) ≡
        G.g ^ ((x3 * H + x2) * r) [MOD G.nn] := by
      have hA : G.mul (G.pow ek.y3 ((H : Nat) : Int)) ek.y2 ≡
          G.g ^ (x3 * H + x2) [MOD G.nn] := by
        unfold Group.mul
        rw [hy3, hy2, pow_nat_eq, g_pow_nat_eq, g_pow_nat_eq,
          ← Nat.pow_mod, ← Nat.pow_mul]
        calc (G.g ^ (x3 * H) % G.nn) * (G.g ^ x2 % G.nn) % G.nn ≡
            G.g ^ (x3 * H) * G.g ^ x2 [MOD G.nn] :=
              (Nat.mod_modEq _ _).trans
                (((Nat.mod_modEq _ _).mul (Nat.mod_modEq _ _)))
          _ = G.g ^ (x3 * H + x2) := by rw [← pow_add]
      rw [pow_nat_eq]
      calc (G.mul (G.pow ek.y3 ((H : Nat) : Int)) ek.y2) ^ r % G.nn ≡
          (G.mul (G.pow ek.y3 ((H : Nat) : Int)) ek.y2) ^ r [MOD G.nn] :=
            Nat.mod_modEq _ _
        _ ≡ (G.g ^ (x3 * H + x2)) ^ r [MOD G.nn] := hA.pow r
        _ = G.g ^ ((x3 * H + x2) * r) := by rw [← Nat.pow_mul]
    have hrhs : G.pow ct.v 2 = ct.v ^ 2 % G.nn := pow_two_eq G ct.v
    rw [hlhs, hrhs]
    show _ ≡ _ [MOD G.nn]
    calc G.g ^ (r * ((H * x3 + x2) * 2)) =
        (G.g ^ ((x3 * H + x2) * r)) ^ 2 := by
          rw [← Nat.pow_mul]; ring_nf
      _ ≡ (G.pow (G.mul (G.pow ek.y3 ((H : Nat) : Int)) ek.y2) (r : Int)) ^ 2
          [MOD G.nn] := (hw.symm).pow 2
      _ ≡ ct.v ^ 2 [MOD G.nn] := by
          rw [hctv]
          exact (abs_sq_modeq hNpos _).symm
  rw [if_neg (not_ne_iff.mpr hcons)]
  -- the extraction loop returns the messages
  rw [hctu, hcte, hy1]
  exact decryptLoop_correct ⟨x1, x2, x3, G⟩ hnn hh htit hn2 hgc r msgs x1 0
    hlen hm

/-!  The three Schnorr verification identities, one per ciphertext
component, stated over the group operations exactly as verify computes
them. -/

theorem coprime_succ_self_nat (n : Nat) : Nat.Coprime (n + 1) n := by
  apply Nat.coprime_of_mul_modEq_one 1
  unfold Nat.ModEq
  rw [mul_one, Nat.add_mod_left]

theorem verify_u_component (G : Group) (hN1 : 1 < G.nn)
    (hgc : Nat.Coprime G.g G.nn) (c r rTick : Nat) (hcr : c * r < G.nn) :
    G.mul (G.pow (G.g_pow (r : Int)) ((c : Int) * 2))
      (G.g_pow (((rTick : Int) - ((G.mul c r : Nat) : Int)) * 2)) =
    G.g_pow ((rTick * 2 : Nat) : Int) := by
  haveI : NeZero G.nn := ⟨by omega⟩
  have hmulcr : (G.mul c r : Nat) = c * r := by
    unfold Group.mul
    exact Nat.mod_eq_of_lt hcr
  rw [hmulcr, g_pow_val G hN1 hgc (r : Int),
    pow_val_zpow G hN1 _ ((c : Int) * 2),
    g_pow_val G hN1 hgc (((rTick : Int) - ((c * r : Nat) : Int)) * 2),
    mul_val G hN1, g_pow_val G hN1 hgc ((rTick * 2 : Nat) : Int)]
  apply congrArg fun (U : (ZMod G.nn)ˣ) => (U : ZMod G.nn).val
  have hexp : ((rTick : Int) - ((c * r : Nat) : Int)) =
      (rTick : Int) - (c : Int) * (r : Int) := by push_cast; ring
  have hexp2 : ((rTick * 2 : Nat) : Int) = (rTick : Int) * 2 := by
    push_cast; ring
  rw [hexp, hexp2]
  exact schnorr_zpow_combine _ _ _ _

theorem verify_v_component (G : Group) (hN1 : 1 < G.nn)
    (hgc : Nat.Coprime G.g G.nn) (c r rTick x2a x3a H : Nat)
    (hcr : c * r < G.nn) :
    G.mul
      (G.pow (G.abs (G.pow (G.mul (G.pow (G.g_pow (x3a : Int)) (H : Int))
        (G.g_pow (x2a : Int))) (r : Int))) ((c : Int) * 2))
      (G.pow (G.mul (G.g_pow (x2a : Int)) (G.pow (G.g_pow (x3a : Int)) (H : Int)))
        (((rTick : Int) - ((G.mul c r : Nat) : Int)) * 2)) =
    G.pow (G.mul (G.pow (G.g_pow (x3a : Int)) (H : Int)) (G.g_pow (x2a : Int)))
      ((rTick * 2 : Nat) : Int) := by
  haveI : NeZero G.nn := ⟨by omega⟩
  have hmulcr : (G.mul c r : Nat) = c * r := by
    unfold Group.mul
    exact Nat.mod_eq_of_lt hcr
  rw [hmulcr, pow_abs_even G (by omega)]
  rw [g_pow_val G hN1 hgc (x3a : Int), g_pow_val G hN1 hgc (x2a : Int),
    pow_val_zpow G hN1 _ (H : Int), mul_val G hN1,
    pow_val_zpow G hN1 _ (r : Int), pow_val_zpow G hN1 _ ((c : Int) * 2),
    mul_val G hN1, pow_val_zpow G hN1 _
      (((rTick : Int) - ((c * r : Nat) : Int)) * 2),
    mul_val G hN1, pow_val_zpow G hN1 _ ((rTick * 2 : Nat) : Int)]
  apply congrArg fun (U : (ZMod G.nn)ˣ) => (U : ZMod G.nn).val
  rw [mul_comm (ZMod.unitOfCoprime G.g hgc ^ (x2a : Int))
    ((ZMod.unitOfCoprime G.g hgc ^ (x3a : Int)) ^ (H : Int))]
  have hexp : ((rTick : Int) - ((c * r : Nat) : Int)) =
      (rTick : Int) - (c : Int) * (r : Int) := by push_cast; ring
  have hexp2 : ((rTick * 2 : Nat) : Int) = (rTick : Int) * 2 := by
    push_cast; ring
  rw [hexp, hexp2]
  exact schnorr_zpow_combine _ _ _ _

theorem verify_e_component (G : Group) (hN1 : 1 < G.nn)
    (hnn : G.nn = G.n * G.n) (hgc : Nat.Coprime G.g G.nn)
    (hhc : Nat.Coprime G.h G.nn)
    (hord : ZMod.unitOfCoprime G.h hhc ^ G.n = 1)
    (c r rTick xi mi bi : Nat) (hcr : c * r < G.nn) :
    G.mul (G.mul
        (G.pow (G.mul (G.pow (G.g_pow (xi : Int)) (r : Int))
          (G.h_pow (mi : Int))) ((c : Int) * 2))
        (G.pow (G.g_pow (xi : Int))
          (((rTick : Int) - ((G.mul c r : Nat) : Int)) * 2)))
      (G.h_pow (((bi : Int) - ((G.mul c mi : Nat) : Int)) * 2)) =
    G.mul (G.pow (G.g_pow (xi : Int)) ((rTick * 2 : Nat) : Int))
      (G.h_pow ((bi * 2 : Nat) : Int)) := by
  haveI : NeZero G.nn := ⟨by omega⟩
  have hmulcr : (G.mul c r : Nat) = c * r := by
    unfold Group.mul
    exact Nat.mod_eq_of_lt hcr
  have hmulcm : (G.mul c mi : Nat) = c * mi % G.nn := rfl
  rw [hmulcr, hmulcm]
  rw [g_pow_val G hN1 hgc (xi : Int), h_pow_val G hN1 hhc (mi : Int),
    h_pow_val G hN1 hhc (((bi : Int) - ((c * mi % G.nn : Nat) : Int)) * 2),
    h_pow_val G hN1 hhc ((bi * 2 : Nat) : Int),
    pow_val_zpow G hN1 _ (r : Int), mul_val G hN1,
    pow_val_zpow G hN1 _ ((c : Int) * 2),
    pow_val_zpow G hN1 _ (((rTick : Int) - ((c * r : Nat) : Int)) * 2),
    mul_val G hN1,
    pow_val_zpow G hN1 _ ((rTick * 2 : Nat) : Int),
    mul_val G hN1, mul_val G hN1]
  apply congrArg fun (U : (ZMod G.nn)ˣ) => (U : ZMod G.nn).val
  set gu := ZMod.unitOfCoprime G.g hgc with hgu
  set hun := ZMod.unitOfCoprime G.h hhc with hhun
  rw [mul_zpow]
  rw [mul_right_comm (((gu ^ (xi : Int)) ^ (r : Int)) ^ ((c : Int) * 2))
    ((hun ^ (mi : Int)) ^ ((c : Int) * 2))
    ((gu ^ (xi : Int)) ^ ((((rTick : Int) - ((c * r : Nat) : Int))) * 2))]
  rw [mul_assoc]
  have hA : ((gu ^ (xi : Int)) ^ (r : Int)) ^ ((c : Int) * 2) *
      (gu ^ (xi : Int)) ^ ((((rTick : Int) - ((c * r : Nat) : Int))) * 2) =
      (gu ^ (xi : Int)) ^ ((rTick * 2 : Nat) : Int) := by
    have hexp : ((rTick : Int) - ((c * r : Nat) : Int)) =
        (rTick : Int) - (c : Int) * (r : Int) := by push_cast; ring
    have hexp2 : ((rTick * 2 : Nat) : Int) = (rTick : Int) * 2 := by
      push_cast; ring
    rw [hexp, hexp2]
    exact schnorr_zpow_combine _ _ _ _
  have hB : (hun ^ (mi : Int)) ^ ((c : Int) * 2) *
      hun ^ (((bi : Int) - ((c * mi % G.nn : Nat) : Int)) * 2) =
      hun ^ ((bi * 2 : Nat) : Int) := by
    obtain ⟨K, R2, hKR, hR2eq⟩ :
        ∃ K R2, G.nn * K + R2 = c * mi ∧ c * mi % G.nn = R2 :=
      ⟨c * mi / G.nn, c * mi % G.nn, Nat.div_add_mod _ _, rfl⟩
    rw [hR2eq, ← zpow_mul, ← zpow_add]
    have hKRz : ((G.nn : Nat) : Int) * (K : Int) + (R2 : Int) =
        (c : Int) * (mi : Int) := by exact_mod_cast hKR
    have hnnz : ((G.nn : Nat) : Int) = (G.n : Int) * (G.n : Int) := by
      exact_mod_cast hnn
    have hexp : (mi : Int) * ((c : Int) * 2) + ((bi : Int) - (R2 : Int)) * 2 =
        ((bi * 2 : Nat) : Int) +
          (G.n : Int) * ((G.n : Int) * (2 * (K : Int))) := by
      push_cast
      linear_combination (-2 : Int) * hKRz + 2 * (K : Int) * hnnz
    rw [hexp]
    exact zpow_add_mul_order hun G.n hord _ _
  rw [hA, hB]

/-- C2: for every key pair over a constructed group with a unit seed, every
nonce, every message vector and every equal-length blinding vector with all
blindings nonzero that fits the key capacity, encrypt_and_prove_blindings
succeeds, and verify accepts the resulting ciphertext and proof whenever the
challenge times the encryption randomness stays below n squared (always the
case in deployment, where the challenge has 32 bytes and n has 2048 bits). -/
theorem c2_prove_then_verify (p q gTick : Nat) (G : Group) (O : TOracle)
    (x1 : List Nat) (x2 x3 : Nat) (nonce msgs blindings : List Nat)
    (r rTick : Nat)
    (hG : withSafePrimesUnchecked p q gTick = some G)
    (hgt : Nat.Coprime gTick (p * q))
    (hblen : msgs.length = blindings.length)
    (hcap : msgs.length ≤ x1.length)
    (hbz : ∀ b ∈ blindings, b ≠ 0) :
    ((EncryptionKey.ofDecryptionKey ⟨x1, x2, x3, G⟩).encrypt_and_prove_blindings
      O nonce msgs blindings r rTick).isOk = true ∧
    ∀ (ct : VerifiableCipherText) (pf : VerifiableEncryptionProof),
      (EncryptionKey.ofDecryptionKey
          ⟨x1, x2, x3, G⟩).encrypt_and_prove_blindings
        O nonce msgs blindings r rTick = .ok (ct, pf) →
      pf.challenge * r < G.nn →
      (EncryptionKey.ofDecryptionKey ⟨x1, x2, x3, G⟩).verify O nonce ct pf =
        .ok () := by
  obtain ⟨hn, hnn, hh, h2half, _, _, hgdef, htit, hodd, hn2⟩ := group_fields hG
  have hN1 : 1 < G.nn := group_nn_pos hG
  haveI : NeZero G.nn := ⟨by omega⟩
  have hgc : Nat.Coprime G.g G.nn := g_coprime hG hgt
  have hhc : Nat.Coprime G.h G.nn := by
    rw [hh, hnn]
    exact Nat.Coprime.mul_right (coprime_succ_self_nat G.n)
      (coprime_succ_self_nat G.n)
  have hord : ZMod.unitOfCoprime G.h hhc ^ G.n = 1 :=
    h_unit_order G hN1 hnn hh hhc
  set ek := EncryptionKey.ofDecryptionKey ⟨x1, x2, x3, G⟩ with hek
  have hekg : ek.group = G := by rw [hek]; rfl
  have hy1 : ek.y1 = x1.map fun (x : Nat) => G.g_pow (x : Int) := by
    rw [hek]; rfl
  have hy2 : ek.y2 = G.g_pow ((x2 : Nat) : Int) := by rw [hek]; rfl
  have hy3 : ek.y3 = G.g_pow ((x3 : Nat) : Int) := by rw [hek]; rfl
  have hy1len : ek.y1.length = x1.length := by rw [hy1, List.length_map]
  have hfind : blindings.findIdx? (fun b => b == 0) = none := by
    rw [List.findIdx?_eq_none_iff]
    intro b hb
    simpa using hbz b hb
  have hsucc : (ek.encrypt_and_prove_blindings O nonce msgs blindings r
      rTick).isOk = true := by
    unfold EncryptionKey.encrypt_and_prove_blindings
    rw [if_neg (by omega), if_neg (by rw [hy1len]; omega), hfind]
    rfl
  refine ⟨hsucc, ?_⟩
  intro ct pf hok hcr
  obtain ⟨-, -, -, hct, hch, hpr, hpm⟩ := eapb_spec hok
  have hctu : ct.u = G.g_pow (r : Int) := by
    rw [hct, hek]; rfl
  have hcte : ct.e = (msgs.zip ek.y1).map fun (my : Nat × Nat) =>
      G.mul (G.pow my.2 (r : Int)) (G.h_pow (my.1 : Int)) := by
    rw [hct]; rfl
  have hctv : ct.v = ek.group.abs (ek.group.pow
      (ek.group.mul (ek.group.pow ek.y3
        ((ek.group.hash O ct.u ct.e nonce : Nat) : Int)) ek.y2) (r : Int)) := by
    conv_lhs => rw [hct]
    conv_rhs => rw [hct]
    rfl
  have hctelen : ct.e.length = msgs.length := by
    rw [hcte]
    simp only [List.length_map, List.length_zip, hy1len]
    omega
  have hpmlen : pf.m.length = msgs.length := by
    rw [hpm]
    simp only [List.length_map, List.length_zip]
    omega
  have hpr2 : pf.r = (rTick : Int) - ((G.mul pf.challenge r : Nat) : Int) := by
    rw [hpr]
    unfold EncryptionKey.schnorr
    rw [hekg]
  -- fold the verifier hash and the prover test values
  set H := ek.group.hash O ct.u ct.e nonce with hHdef
  set tv := ek.ciphertext_test_values rTick H blindings with htvdef
  have htvu : tv.u = G.g_pow ((rTick * 2 : Nat) : Int) := by
    rw [htvdef, hek]; rfl
  have htve : tv.e = ((blindings.map fun m => m * 2).zip ek.y1).map
      fun (my : Nat × Nat) =>
      G.mul (G.pow my.2 ((rTick * 2 : Nat) : Int))
        (G.h_pow (my.1 : Int)) := by
    rw [htvdef]; rfl
  have htvv : tv.v = G.pow (G.mul (G.pow ek.y3 ((H : Nat) : Int)) ek.y2)
      ((rTick * 2 : Nat) : Int) := by
    rw [htvdef, hek]; rfl
  have htvelen : tv.e.length = msgs.length := by
    rw [htve]
    simp only [List.length_map, List.length_zip, hy1len]
    omega
  have hctv2 : ct.v = G.abs (G.pow (G.mul (G.pow (G.g_pow ((x3 : Nat) : Int))
      ((H : Nat) : Int)) (G.g_pow ((x2 : Nat) : Int))) (r : Int)) := by
    rw [hctv, hekg, hy2, hy3]
  -- componentwise equality of the e vectors
  have hE : ((ct.e.zip (ek.y1.zip pf.m)).map fun eym =>
      G.mul (G.mul (G.pow eym.1 ((pf.challenge : Int) * 2))
        (G.pow eym.2.1 (((rTick : Int) -
          ((G.mul pf.challenge r : Nat) : Int)) * 2)))
        (G.h_pow (eym.2.2 * 2))) = tv.e := by
    rw [htve, hcte, hy1, hpm]
    apply List.ext_getElem
    · simp only [List.length_map, List.length_zip]
      omega
    · intro i h1 h2
      have hi : i < msgs.length := by
        simp only [List.length_map, List.length_zip] at h1
        omega
      simp only [List.getElem_map, List.getElem_zip]
      unfold EncryptionKey.schnorr
      exact verify_e_component G hN1 hnn hgc hhc hord pf.challenge r rTick
        x1[i] msgs[i] blindings[i] hcr
  have hufinal := verify_u_component G hN1 hgc pf.challenge r rTick hcr
  have hvfinal := verify_v_component G hN1 hgc pf.challenge r rTick x2 x3 H
    hcr
  -- assemble and close the verification
  simp only [EncryptionKey.verify]
  rw [if_neg (by omega), if_neg (by omega)]
  rw [← hHdef, hekg, hy2, hy3, hctu, hctv2, hpr2]
  rw [hufinal, hvfinal, hE]
  have hstruct : (⟨G.g_pow ((rTick * 2 : Nat) : Int),
      G.pow (G.mul (G.pow (G.g_pow ((x3 : Nat) : Int)) ((H : Nat) : Int))
        (G.g_pow ((x2 : Nat) : Int))) ((rTick * 2 : Nat) : Int),
      tv.e⟩ : VerifiableCipherText) = tv := by
    have hv2 : tv.v = G.pow (G.mul (G.pow (G.g_pow ((x3 : Nat) : Int))
        ((H : Nat) : Int)) (G.g_pow ((x2 : Nat) : Int)))
        ((rTick * 2 : Nat) : Int) := by
      rw [htvv, hy2, hy3]
    rw [← htvu, ← hv2]
  rw [hstruct]
  rw [if_pos hch.symm]

/-- Witness for C2 at the concrete key, message vector containing 2,
blinding vector containing 3 and the empty-answer oracle, including the
concrete accepting verification run. -/
theorem c2_prove_then_verify_witness :
    (withSafePrimesUnchecked 5 7 2 = some GroupC ∧ Nat.Coprime 2 (5 * 7) ∧
      ([2] : List Nat).length = ([3] : List Nat).length ∧
      ([2] : List Nat).length ≤ ([3] : List Nat).length ∧
      (∀ b ∈ ([3] : List Nat), b ≠ 0)) ∧
    (((EncryptionKey.ofDecryptionKey
        ⟨[3], 4, 5, GroupC⟩).encrypt_and_prove_blindings
        oracleNil [1] [2] [3] 2 3).isOk = true ∧
      ∀ (ct : VerifiableCipherText) (pf : VerifiableEncryptionProof),
        (EncryptionKey.ofDecryptionKey
            ⟨[3], 4, 5, GroupC⟩).encrypt_and_prove_blindings
          oracleNil [1] [2] [3] 2 3 = .ok (ct, pf) →
        pf.challenge * 2 < GroupC.nn →
        (EncryptionKey.ofDecryptionKey ⟨[3], 4, 5, GroupC⟩).verify
          oracleNil [1] ct pf = .ok ()) ∧
    (EncryptionKey.ofDecryptionKey ⟨[3], 4, 5, GroupC⟩).verify oracleNil [1]
      ⟨226, 226, [71]⟩ ⟨0, 3, [3]⟩ = .ok () := by
  have main := c2_prove_then_verify 5 7 2 GroupC oracleNil [3] 4 5 [1] [2] [3]
    2 3 (by decide) (by decide) (by decide) (by decide) (by decide)
  exact ⟨⟨by decide, by decide, by decide, by decide, by decide⟩,
    ⟨main.1, main.2⟩,
    main.2 ⟨226, 226, [71]⟩ ⟨0, 3, [3]⟩ (by decide) (by decide)⟩

/-- Witness for C1: the concrete group from the safe primes 5 and 7, the
capacity-1 key, the message vector containing 2 and blinding 2. -/
theorem c1_decrypt_encrypt_witness :
    (Nat.Prime 5 ∧ Nat.Prime 2 ∧ Nat.Prime 7 ∧ Nat.Prime 3 ∧
      withSafePrimesUnchecked 5 7 2 = some GroupC ∧ Nat.Coprime 2 (5 * 7)) ∧
    ((EncryptionKey.ofDecryptionKey ⟨[3], 4, 5, GroupC⟩).encrypt oracleNil [1]
      [2] 2).bind
      (fun ct => (⟨[3], 4, 5, GroupC⟩ : DecryptionKey).decrypt oracleNil [1] ct) =
    .ok [2] :=
  ⟨⟨by decide, by decide, by decide, by decide, by decide, by decide⟩,
    c1_decrypt_encrypt 5 7 2 GroupC oracleNil [3] 4 5 [1] [2] 2
      (by decide) (by decide) (by decide) (by decide) (by decide) (by decide)
      (by decide) (by decide) (by decide) (by decide) (by decide)⟩

end Verenc
